import Mathlib

/-!
Verification of the career-explorer core logic (`src/career_explorer.py`).

The embedding models:
- strings as Lean `String` (free text as `List Char`),
- Python floats as exact rationals `ℚ`,
- Python sets as `Finset String`,
- Python dicts (the obsession-weight map) as association lists
  `List (String × ℚ)` looked up with `find?`, wrapped in `Option` so that
  `None` and a dict can be told apart (Python truthiness of `None` and `{}`
  both skip the penalty loop).

Each definition follows the corresponding Python function; theorems below
settle the specification claims against these definitions.
-/

/-- A record of `JOBS_DB`: `{"name": ..., "tags": {...}, "description": ...}`. -/
structure Job where
  name : String
  tags : Finset String
  description : String
deriving DecidableEq

/-- One term of the anti-obsession penalty loop:
`if w > 1.0: penalty += (w - 1.0) * 0.05`. -/
def obsession_contrib (w : ℚ) : ℚ :=
  if 1 < w then (w - 1) * (5 / 100) else 0

/-- Python `obsession_weights.get(i, 1.0)` on the association-list model of the
dict. -/
def wlookup (ws : List (String × ℚ)) (i : String) : ℚ :=
  match ws.find? (fun p => p.1 == i) with
  | some p => p.2
  | none => 1

/-- The weight the penalty loop effectively uses for interest `i`: `1` when the
map is absent, otherwise the dict lookup with default `1.0`.  (For the empty
dict, which Python treats as falsy, every lookup is the default `1`, matching
the skipped loop.) -/
def effectiveWeight (ow : Option (List (String × ℚ))) (i : String) : ℚ :=
  match ow with
  | none => 1
  | some ws => wlookup ws i

/-- The penalty accumulation of `score_job`: skipped entirely when
`obsession_weights` is falsy (`None` or the empty dict), otherwise the loop
`for i in overlap: ...` summed over the overlap set. -/
def score_penalty (ow : Option (List (String × ℚ))) (overlap : Finset String) : ℚ :=
  match ow with
  | none => 0
  | some ws =>
    if ws.isEmpty then 0
    else overlap.sum (fun i => obsession_contrib (wlookup ws i))

/-- `score_job(user_interests, job_tags, obsession_weights)` from the source:
coverage/precision weighted average minus the anti-obsession penalty, clamped
at zero. -/
def score_job (user_interests : List String) (job_tags : Finset String)
    (obsession_weights : Option (List (String × ℚ))) : ℚ :=
  let user_set : Finset String := user_interests.toFinset
  let overlap : Finset String := user_set ∩ job_tags
  if overlap = ∅ then 0
  else
    let coverage : ℚ := (overlap.card : ℚ) / ((max 1 user_set.card : ℕ) : ℚ)
    let precision : ℚ := (overlap.card : ℚ) / ((max 1 job_tags.card : ℕ) : ℚ)
    let base_score : ℚ := (6 / 10) * precision + (4 / 10) * coverage
    let penalty : ℚ := score_penalty obsession_weights overlap
    max 0 (base_score - penalty)

lemma obsession_contrib_nonneg (w : ℚ) : 0 ≤ obsession_contrib w := by
  unfold obsession_contrib
  split
  · have h1 : (0 : ℚ) ≤ w - 1 := by linarith
    positivity
  · exact le_rfl

lemma obsession_contrib_of_le_one {w : ℚ} (h : w ≤ 1) : obsession_contrib w = 0 := by
  unfold obsession_contrib
  rw [if_neg (by linarith)]

lemma obsession_contrib_mono {v w : ℚ} (h : v ≤ w) :
    obsession_contrib v ≤ obsession_contrib w := by
  unfold obsession_contrib
  split <;> split
  · nlinarith
  · nlinarith
  · have h1 : (0 : ℚ) ≤ w - 1 := by linarith
    positivity
  · exact le_rfl

lemma wlookup_mem_or_one (ws : List (String × ℚ)) (i : String) :
    (∃ p ∈ ws, wlookup ws i = p.2) ∨ wlookup ws i = 1 := by
  unfold wlookup
  cases h : ws.find? (fun p => p.1 == i) with
  | none => exact Or.inr rfl
  | some p => exact Or.inl ⟨p, List.mem_of_find?_eq_some h, rfl⟩

/-- The truthiness short-circuit of the penalty computes the same value as the
sum of per-interest contributions at the effective weights. -/
lemma score_penalty_eq_sum (ow : Option (List (String × ℚ))) (overlap : Finset String) :
    score_penalty ow overlap
      = overlap.sum (fun i => obsession_contrib (effectiveWeight ow i)) := by
  cases ow with
  | none =>
    simp [score_penalty, effectiveWeight, obsession_contrib_of_le_one le_rfl]
  | some ws =>
    cases ws with
    | nil =>
      simp [score_penalty, effectiveWeight, wlookup, obsession_contrib_of_le_one le_rfl]
    | cons p ps =>
      simp [score_penalty, effectiveWeight]

/-- `score_job` with its intermediate variables substituted and the penalty in
`effectiveWeight` form. -/
lemma score_job_eq (u : List String) (t : Finset String)
    (ow : Option (List (String × ℚ))) :
    score_job u t ow =
      if u.toFinset ∩ t = ∅ then 0
      else
        max 0 ((6 / 10) * (((u.toFinset ∩ t).card : ℚ) / ((max 1 t.card : ℕ) : ℚ))
          + (4 / 10) * (((u.toFinset ∩ t).card : ℚ) / ((max 1 u.toFinset.card : ℕ) : ℚ))
          - (u.toFinset ∩ t).sum (fun i => obsession_contrib (effectiveWeight ow i))) := by
  simp only [score_job, score_penalty_eq_sum]

lemma score_job_nonneg (u : List String) (t : Finset String)
    (ow : Option (List (String × ℚ))) : 0 ≤ score_job u t ow := by
  rw [score_job_eq]
  split
  · exact le_rfl
  · exact le_max_left 0 _

lemma score_job_of_empty_overlap (u : List String) (t : Finset String)
    (ow : Option (List (String × ℚ))) (h : u.toFinset ∩ t = ∅) :
    score_job u t ow = 0 := by
  rw [score_job_eq, if_pos h]

lemma max_one_cast_pos (n : ℕ) : (0 : ℚ) < ((max 1 n : ℕ) : ℚ) := by
  have h1 : 0 < max 1 n := lt_of_lt_of_le Nat.zero_lt_one (le_max_left 1 n)
  exact_mod_cast h1

lemma score_job_le_one (u : List String) (t : Finset String)
    (ow : Option (List (String × ℚ))) : score_job u t ow ≤ 1 := by
  rw [score_job_eq]
  split
  · norm_num
  · have hpen : 0 ≤ (u.toFinset ∩ t).sum (fun i => obsession_contrib (effectiveWeight ow i)) :=
      Finset.sum_nonneg (fun i _ => obsession_contrib_nonneg _)
    have hprec : ((u.toFinset ∩ t).card : ℚ) / ((max 1 t.card : ℕ) : ℚ) ≤ 1 := by
      rw [div_le_one (max_one_cast_pos t.card)]
      have h1 : (u.toFinset ∩ t).card ≤ max 1 t.card :=
        le_trans (Finset.card_le_card Finset.inter_subset_right) (le_max_right 1 _)
      exact_mod_cast h1
    have hcov : ((u.toFinset ∩ t).card : ℚ) / ((max 1 u.toFinset.card : ℕ) : ℚ) ≤ 1 := by
      rw [div_le_one (max_one_cast_pos u.toFinset.card)]
      have h1 : (u.toFinset ∩ t).card ≤ max 1 u.toFinset.card :=
        le_trans (Finset.card_le_card Finset.inter_subset_left) (le_max_right 1 _)
      exact_mod_cast h1
    apply max_le (by norm_num)
    nlinarith

lemma score_job_pos_of_no_penalty (u : List String) (t : Finset String)
    (ow : Option (List (String × ℚ)))
    (hne : u.toFinset ∩ t ≠ ∅)
    (hpen : ∀ i ∈ u.toFinset ∩ t, effectiveWeight ow i ≤ 1) :
    0 < score_job u t ow := by
  rw [score_job_eq, if_neg hne]
  have hzero : (u.toFinset ∩ t).sum (fun i => obsession_contrib (effectiveWeight ow i)) = 0 :=
    Finset.sum_eq_zero (fun i hi => obsession_contrib_of_le_one (hpen i hi))
  rw [hzero]
  have hcard : 0 < ((u.toFinset ∩ t).card : ℚ) := by
    have h1 : 0 < (u.toFinset ∩ t).card :=
      Finset.card_pos.mpr (Finset.nonempty_iff_ne_empty.mpr hne)
    exact_mod_cast h1
  have hprec : 0 < ((u.toFinset ∩ t).card : ℚ) / ((max 1 t.card : ℕ) : ℚ) :=
    div_pos hcard (max_one_cast_pos t.card)
  have hcov : 0 < ((u.toFinset ∩ t).card : ℚ) / ((max 1 u.toFinset.card : ℕ) : ℚ) :=
    div_pos hcard (max_one_cast_pos u.toFinset.card)
  have hbase : 0 < (6 / 10) * (((u.toFinset ∩ t).card : ℚ) / ((max 1 t.card : ℕ) : ℚ))
      + (4 / 10) * (((u.toFinset ∩ t).card : ℚ) / ((max 1 u.toFinset.card : ℕ) : ℚ)) - 0 := by
    nlinarith
  calc 0 < _ := hbase
    _ ≤ _ := le_max_right 0 _

/-- Concrete counterexample data for the zero-score claim: ten user interests,
ten job tags, overlap `{"a", "b"}`, both overlapping weights at the slider
maximum `3.0`.  The base score is `0.2` and the penalty is `2 * 0.1 = 0.2`. -/
def uC1 : List String := ["a", "b", "u1", "u2", "u3", "u4", "u5", "u6", "u7", "u8"]

def tC1 : Finset String :=
  {"a", "b", "t1", "t2", "t3", "t4", "t5", "t6", "t7", "t8"}

def wsC1 : List (String × ℚ) := [("a", 3), ("b", 3)]

/-- C1 (counterexample): with all weights in `[1.0, 3.0]`, `score_job` can
return exactly `0.0` although the overlap between the user interests and the
job tags is nonempty, so "returns 0.0 iff the overlap is empty" fails. -/
theorem score_job_zero_nonempty_overlap_cex :
    uC1.toFinset ∩ tC1 ≠ ∅
    ∧ (∀ p ∈ wsC1, 1 ≤ p.2 ∧ p.2 ≤ 3)
    ∧ score_job uC1 tC1 (some wsC1) = 0 := by
  have hover : uC1.toFinset ∩ tC1 = {"a", "b"} := by decide
  refine ⟨by decide, by decide, ?_⟩
  rw [score_job_eq, hover, if_neg (by decide : ¬({"a", "b"} : Finset String) = ∅)]
  have hcardo : ({"a", "b"} : Finset String).card = 2 := by decide
  have hcardu : uC1.toFinset.card = 10 := by decide
  have hcardt : tC1.card = 10 := by decide
  have hwa : effectiveWeight (some wsC1) "a" = 3 := rfl
  have hwb : effectiveWeight (some wsC1) "b" = 3 := rfl
  have hsum : ({"a", "b"} : Finset String).sum
      (fun i => obsession_contrib (effectiveWeight (some wsC1) i)) = 1 / 5 := by
    rw [Finset.sum_pair (by decide : ("a" : String) ≠ "b"), hwa, hwb]
    norm_num [obsession_contrib]
  rw [hcardo, hcardu, hcardt, hsum]
  norm_num

/-- C1 (amended): for every weight map with values in `[1.0, 3.0]`, `score_job`
returns a value in `[0.0, 1.0]` and returns `0.0` whenever the overlap of user
interests and job tags is empty; the converse direction of the zero
characterisation holds when no weight exceeds `1.0` (so the penalty vanishes),
but not in general. -/
theorem score_job_range_and_zero (u : List String) (t : Finset String)
    (ws : List (String × ℚ)) (hw : ∀ p ∈ ws, 1 ≤ p.2 ∧ p.2 ≤ 3) :
    (0 ≤ score_job u t (some ws) ∧ score_job u t (some ws) ≤ 1)
    ∧ (u.toFinset ∩ t = ∅ → score_job u t (some ws) = 0)
    ∧ ((∀ p ∈ ws, p.2 ≤ 1) → (score_job u t (some ws) = 0 ↔ u.toFinset ∩ t = ∅)) := by
  refine ⟨⟨score_job_nonneg u t _, score_job_le_one u t _⟩,
    fun h => score_job_of_empty_overlap u t _ h, fun hle => ⟨fun h0 => ?_, fun h =>
      score_job_of_empty_overlap u t _ h⟩⟩
  by_contra hne
  have hpos : 0 < score_job u t (some ws) := by
    apply score_job_pos_of_no_penalty u t (some ws) hne
    intro i _
    rcases wlookup_mem_or_one ws i with ⟨p, hp, heq⟩ | heq
    · show wlookup ws i ≤ 1
      rw [heq]
      exact hle p hp
    · show wlookup ws i ≤ 1
      rw [heq]
  exact absurd h0 (ne_of_gt hpos)

theorem score_job_range_and_zero_witness :
    (0 ≤ score_job ["a"] {"a"} (some [("a", 1)])
      ∧ score_job ["a"] {"a"} (some [("a", 1)]) ≤ 1)
    ∧ (["a"].toFinset ∩ {"a"} = ∅ → score_job ["a"] {"a"} (some [("a", 1)]) = 0)
    ∧ ((∀ p ∈ [(("a" : String), (1 : ℚ))], p.2 ≤ 1) →
        (score_job ["a"] {"a"} (some [("a", 1)]) = 0 ↔ ["a"].toFinset ∩ {"a"} = ∅)) :=
  score_job_range_and_zero ["a"] {"a"} [("a", 1)] (by decide)

/-- C4: holding everything else fixed, raising the weight of one interest `i`
from `v > 1.0` to any `w ≥ v` never increases `score_job` (the association
list is extended at the front, which is how an updated dict entry is
modelled). -/
theorem score_job_antitone_in_weight (u : List String) (t : Finset String)
    (ws : List (String × ℚ)) (i : String) (v w : ℚ)
    (hv : 1 < v) (hvw : v ≤ w) :
    score_job u t (some ((i, w) :: ws)) ≤ score_job u t (some ((i, v) :: ws)) := by
  rw [score_job_eq, score_job_eq]
  split
  · exact le_rfl
  · apply max_le_max le_rfl
    apply sub_le_sub_left
    apply Finset.sum_le_sum
    intro j _
    show obsession_contrib (wlookup ((i, v) :: ws) j)
      ≤ obsession_contrib (wlookup ((i, w) :: ws) j)
    by_cases hij : i = j
    · subst hij
      have hfindv : List.find? (fun p => p.1 == i) ((i, v) :: ws) = some (i, v) :=
        List.find?_cons_of_pos _ (by simp)
      have hfindw : List.find? (fun p => p.1 == i) ((i, w) :: ws) = some (i, w) :=
        List.find?_cons_of_pos _ (by simp)
      unfold wlookup
      rw [hfindv, hfindw]
      exact obsession_contrib_mono hvw
    · have hfindv : List.find? (fun p => p.1 == j) ((i, v) :: ws)
          = List.find? (fun p => p.1 == j) ws :=
        List.find?_cons_of_neg _ (by simp [hij])
      have hfindw : List.find? (fun p => p.1 == j) ((i, w) :: ws)
          = List.find? (fun p => p.1 == j) ws :=
        List.find?_cons_of_neg _ (by simp [hij])
      unfold wlookup
      rw [hfindv, hfindw]

theorem score_job_antitone_in_weight_witness :
    score_job ["a"] {"a"} (some [("a", 3)]) ≤ score_job ["a"] {"a"} (some [("a", 2)]) :=
  score_job_antitone_in_weight ["a"] {"a"} [] "a" 2 3 (by norm_num) (by norm_num)

lemma obsession_contrib_max_one (w : ℚ) :
    obsession_contrib (max 1 w) = obsession_contrib w := by
  rcases le_total w 1 with h | h
  · rw [max_eq_left h, obsession_contrib_of_le_one le_rfl,
      obsession_contrib_of_le_one h]
  · rw [max_eq_right h]

/-- C10: `score_job` reads the weight map only through the effective weights
of interests in the overlap, and only through their excess above `1.0`.  Any
two maps (including `None`, the empty dict, or maps with extra or missing
entries) that agree in this sense yield the same score. -/
theorem score_job_noninterference (u : List String) (t : Finset String)
    (w1 w2 : Option (List (String × ℚ)))
    (h : ∀ i ∈ u.toFinset ∩ t,
      max 1 (effectiveWeight w1 i) = max 1 (effectiveWeight w2 i)) :
    score_job u t w1 = score_job u t w2 := by
  rw [score_job_eq, score_job_eq]
  have hsum : (u.toFinset ∩ t).sum (fun i => obsession_contrib (effectiveWeight w1 i))
      = (u.toFinset ∩ t).sum (fun i => obsession_contrib (effectiveWeight w2 i)) := by
    apply Finset.sum_congr rfl
    intro i hi
    rw [← obsession_contrib_max_one (effectiveWeight w1 i), h i hi,
      obsession_contrib_max_one]
  rw [hsum]

theorem score_job_noninterference_witness :
    score_job ["a"] {"a"} none = score_job ["a"] {"a"} (some [("b", 2), ("a", 1 / 2)]) :=
  score_job_noninterference ["a"] {"a"} none (some [("b", 2), ("a", 1 / 2)])
    (by
      intro i hi
      have hover : (["a"].toFinset ∩ {"a"} : Finset String) = {"a"} := by decide
      rw [hover] at hi
      have hia : i = "a" := by simpa using hi
      subst hia
      have e1 : effectiveWeight none "a" = 1 := rfl
      have e2 : effectiveWeight (some [("b", 2), ("a", 1 / 2)]) "a" = 1 / 2 := rfl
      rw [e1, e2]
      norm_num)

/-- `itertools.combinations(items, r)`: all `r`-element combinations of
`items` in the standard order, choosing indices in increasing order. -/
def combinations {α : Type} : Nat → List α → List (List α)
  | 0, _ => [[]]
  | _ + 1, [] => []
  | r + 1, x :: xs => (combinations r xs).map (x :: ·) ++ combinations (r + 1) xs

/-- `generate_combinations(items)` from the source: concatenate the
`r`-element combinations for `r = 1 .. len(items)`. -/
def generate_combinations {α : Type} (items : List α) : List (List α) :=
  (List.range items.length).flatMap (fun r => combinations (r + 1) items)

lemma length_combinations {α : Type} (l : List α) :
    ∀ r, (combinations r l).length = l.length.choose r := by
  induction l with
  | nil =>
    intro r
    cases r <;> simp [combinations]
  | cons x xs ih =>
    intro r
    cases r with
    | zero => simp [combinations]
    | succ r =>
      simp [combinations, ih, Nat.choose_succ_succ, Nat.add_comm]

lemma length_of_mem_combinations {α : Type} {c : List α} (l : List α) :
    ∀ r, c ∈ combinations r l → c.length = r := by
  induction l generalizing c with
  | nil =>
    intro r hc
    cases r with
    | zero => simp [combinations] at hc; simp [hc]
    | succ r => simp [combinations] at hc
  | cons x xs ih =>
    intro r hc
    cases r with
    | zero => simp [combinations] at hc; simp [hc]
    | succ r =>
      simp only [combinations, List.mem_append, List.mem_map] at hc
      rcases hc with ⟨a, ha, rfl⟩ | hc
      · simp [ih r ha]
      · exact ih (r + 1) hc

lemma sublist_of_mem_combinations {α : Type} {c : List α} (l : List α) :
    ∀ r, c ∈ combinations r l → c.Sublist l := by
  induction l generalizing c with
  | nil =>
    intro r hc
    cases r with
    | zero => simp [combinations] at hc; simp [hc]
    | succ r => simp [combinations] at hc
  | cons x xs ih =>
    intro r hc
    cases r with
    | zero => simp [combinations] at hc; simp [hc]
    | succ r =>
      simp only [combinations, List.mem_append, List.mem_map] at hc
      rcases hc with ⟨a, ha, rfl⟩ | hc
      · exact List.Sublist.cons₂ x (ih r ha)
      · exact List.Sublist.cons x (ih (r + 1) hc)

lemma nodup_combinations {α : Type} :
    ∀ l : List α, l.Nodup → ∀ r, (combinations r l).Nodup := by
  intro l
  induction l with
  | nil =>
    intro _ r
    cases r <;> simp [combinations]
  | cons x xs ih =>
    intro hl r
    have hx : x ∉ xs := (List.nodup_cons.mp hl).1
    have hxs : xs.Nodup := (List.nodup_cons.mp hl).2
    cases r with
    | zero => simp [combinations]
    | succ r =>
      rw [combinations, List.nodup_append]
      refine ⟨(ih hxs r).map ?_, ih hxs (r + 1), ?_⟩
      · intro a b hab
        simpa using hab
      · intro c hc hc2
        rcases List.mem_map.mp hc with ⟨a, _, rfl⟩
        have hsub : (x :: a).Sublist xs := sublist_of_mem_combinations xs (r + 1) hc2
        exact hx (hsub.mem (List.mem_cons_self x a))

lemma pairwise_lex_combinations {α : Type} {R : α → α → Prop} :
    ∀ l : List α, l.Pairwise R → ∀ r, (combinations r l).Pairwise (List.Lex R) := by
  intro l
  induction l with
  | nil =>
    intro _ r
    cases r <;> simp [combinations]
  | cons x xs ih =>
    intro hl r
    have hhead : ∀ y ∈ xs, R x y := (List.pairwise_cons.mp hl).1
    have hxs : xs.Pairwise R := (List.pairwise_cons.mp hl).2
    cases r with
    | zero => simp [combinations]
    | succ r =>
      rw [combinations, List.pairwise_append]
      refine ⟨List.pairwise_map.mpr ((ih hxs r).imp fun h => List.Lex.cons h), ih hxs (r + 1), ?_⟩
      intro a ha b hb
      rcases List.mem_map.mp ha with ⟨a0, _, rfl⟩
      cases b with
      | nil =>
        have := length_of_mem_combinations xs (r + 1) hb
        simp at this
      | cons y b0 =>
        have hysub : (y :: b0).Sublist xs := sublist_of_mem_combinations xs (r + 1) hb
        exact List.Lex.rel (hhead y (hysub.mem (List.mem_cons_self y b0)))

/-- In a duplicate-free list, earlier elements have smaller `indexOf`:
the input order of `items` as a strict order on its elements. -/
lemma nodup_pairwise_indexOf {α : Type} [DecidableEq α] :
    ∀ l : List α, l.Nodup → l.Pairwise (fun a b => l.indexOf a < l.indexOf b) := by
  intro l
  induction l with
  | nil => intro _; exact List.Pairwise.nil
  | cons x xs ih =>
    intro hl
    have hx : x ∉ xs := (List.nodup_cons.mp hl).1
    have hxs : xs.Nodup := (List.nodup_cons.mp hl).2
    refine List.pairwise_cons.mpr ⟨?_, ?_⟩
    · intro b hb
      have hxb : x ≠ b := fun h => hx (h ▸ hb)
      rw [List.indexOf_cons_self, List.indexOf_cons_ne _ hxb]
      exact Nat.succ_pos _
    · refine (ih hxs).imp_of_mem ?_
      intro a b ha hb hab
      have hxa : x ≠ a := fun h => hx (h ▸ ha)
      have hxb : x ≠ b := fun h => hx (h ▸ hb)
      rw [List.indexOf_cons_ne _ hxa, List.indexOf_cons_ne _ hxb]
      exact Nat.succ_lt_succ hab

lemma sum_map_range (g : ℕ → ℕ) : ∀ n, ((List.range n).map g).sum = ∑ i ∈ Finset.range n, g i := by
  intro n
  induction n with
  | zero => simp
  | succ n ih =>
    rw [List.range_succ, List.map_append, List.sum_append, Finset.sum_range_succ, ih]
    simp

lemma length_generate_combinations {α : Type} (items : List α) :
    (generate_combinations items).length = 2 ^ items.length - 1 := by
  unfold generate_combinations
  rw [List.length_flatMap]
  have h1 : List.map (List.length ∘ fun r => combinations (r + 1) items)
        (List.range items.length)
      = List.map (fun r => items.length.choose (r + 1)) (List.range items.length) := by
    apply List.map_congr_left
    intro r _
    simp [Function.comp, length_combinations]
  rw [h1, sum_map_range (fun r => items.length.choose (r + 1))]
  have h3 := Nat.sum_range_choose items.length
  rw [Finset.sum_range_succ'] at h3
  simp only [Nat.choose_zero_right] at h3
  omega

/-- C2: for a duplicate-free interest list of size `N ≥ 1`,
`generate_combinations` yields exactly `2^N - 1` tuples, each of length
between `1` and `N`, with no duplicates, ordered by length ascending and,
within a length, lexicographically by position in the input list. -/
theorem generate_combinations_spec (items : List String) (hnd : items.Nodup)
    (hN : 1 ≤ items.length) :
    (generate_combinations items).length = 2 ^ items.length - 1
    ∧ (∀ c ∈ generate_combinations items, 1 ≤ c.length ∧ c.length ≤ items.length)
    ∧ (generate_combinations items).Nodup
    ∧ (generate_combinations items).Pairwise (fun c d =>
        c.length < d.length
        ∨ (c.length = d.length
            ∧ List.Lex (fun x y => items.indexOf x < items.indexOf y) c d)) := by
  refine ⟨length_generate_combinations items, ?_, ?_, ?_⟩
  · intro c hc
    rw [generate_combinations, List.mem_flatMap] at hc
    rcases hc with ⟨r, hr, hcr⟩
    have hlen : c.length = r + 1 := length_of_mem_combinations items (r + 1) hcr
    have hrN : r < items.length := List.mem_range.mp hr
    omega
  · rw [generate_combinations, List.nodup_flatMap]
    refine ⟨fun r _ => nodup_combinations items hnd (r + 1), ?_⟩
    refine (List.pairwise_lt_range items.length).imp_of_mem ?_
    intro r1 r2 _ _ hlt
    intro c hc1 hc2
    have h1 : c.length = r1 + 1 := length_of_mem_combinations items (r1 + 1) hc1
    have h2 : c.length = r2 + 1 := length_of_mem_combinations items (r2 + 1) hc2
    omega
  · rw [generate_combinations, List.flatMap, List.pairwise_flatten]
    constructor
    · intro L hL
      rcases List.mem_map.mp hL with ⟨r, _, rfl⟩
      have hlex := pairwise_lex_combinations items (nodup_pairwise_indexOf items hnd) (r + 1)
      refine hlex.imp_of_mem ?_
      intro c d hcm hdm hcd
      have h1 : c.length = r + 1 := length_of_mem_combinations items (r + 1) hcm
      have h2 : d.length = r + 1 := length_of_mem_combinations items (r + 1) hdm
      exact Or.inr ⟨by omega, hcd⟩
    · refine List.pairwise_map.mpr ?_
      refine (List.pairwise_lt_range items.length).imp_of_mem ?_
      intro r1 r2 _ _ hlt
      intro c hc d hd
      have h1 : c.length = r1 + 1 := length_of_mem_combinations items (r1 + 1) hc
      have h2 : d.length = r2 + 1 := length_of_mem_combinations items (r2 + 1) hd
      exact Or.inl (by omega)

theorem generate_combinations_spec_witness :
    (generate_combinations ["a", "b"]).length = 2 ^ (["a", "b"] : List String).length - 1
    ∧ (∀ c ∈ generate_combinations ["a", "b"],
        1 ≤ c.length ∧ c.length ≤ (["a", "b"] : List String).length)
    ∧ (generate_combinations ["a", "b"]).Nodup
    ∧ (generate_combinations ["a", "b"]).Pairwise (fun c d =>
        c.length < d.length
        ∨ (c.length = d.length
            ∧ List.Lex (fun x y =>
                (["a", "b"] : List String).indexOf x < (["a", "b"] : List String).indexOf y) c d)) :=
  generate_combinations_spec ["a", "b"] (by decide) (by decide)

/-- `max 0` written as an `ite`, so that concrete scores can be evaluated by
`decide` (the `Max ℚ` instance itself does not reduce in the kernel). -/
lemma score_job_ite (u : List String) (t : Finset String)
    (ow : Option (List (String × ℚ))) :
    score_job u t ow =
      if u.toFinset ∩ t = ∅ then 0
      else
        if 0 ≤ (6 / 10) * (((u.toFinset ∩ t).card : ℚ) / ((max 1 t.card : ℕ) : ℚ))
            + (4 / 10) * (((u.toFinset ∩ t).card : ℚ) / ((max 1 u.toFinset.card : ℕ) : ℚ))
            - score_penalty ow (u.toFinset ∩ t)
        then (6 / 10) * (((u.toFinset ∩ t).card : ℚ) / ((max 1 t.card : ℕ) : ℚ))
            + (4 / 10) * (((u.toFinset ∩ t).card : ℚ) / ((max 1 u.toFinset.card : ℕ) : ℚ))
            - score_penalty ow (u.toFinset ∩ t)
        else 0 := by
  have hmax : ∀ x : ℚ, max 0 x = if 0 ≤ x then x else 0 := fun x => by rw [max_def]
  simp only [score_job, hmax]

/-- The eight records of `JOBS_DB`. -/
def sportsJournalist : Job :=
  { name := "Sports Journalist",
    tags := {"sport", "scrittura", "media"},
    description := "Raccontare eventi sportivi con articoli, video o podcast." }

def uxDesigner : Job :=
  { name := "UX Designer",
    tags := {"design", "psicologia", "tecnologia", "creativita"},
    description := "Progettazione di prodotti digitali centrati sulle persone." }

def dataAnalyst : Job :=
  { name := "Data Analyst",
    tags := {"tecnologia", "numeri", "business", "analisi"},
    description := "Analisi dati per prendere decisioni migliori." }

def productManagerSportTech : Job :=
  { name := "Product Manager (Sport-Tech)",
    tags := {"sport", "tecnologia", "business", "leadership"},
    description := "Guida lo sviluppo di prodotti digitali nel mondo sportivo." }

def contentCreator : Job :=
  { name := "Content Creator",
    tags := {"scrittura", "creativita", "media"},
    description := "Creazione di contenuti online su temi specifici." }

def mentalCoachSportivo : Job :=
  { name := "Mental Coach Sportivo",
    tags := {"sport", "psicologia", "coaching"},
    description := "Supporto mentale ad atleti e team." }

def gameDesigner : Job :=
  { name := "Game Designer",
    tags := {"tecnologia", "design", "creativita", "psicologia"},
    description := "Progettazione di videogiochi e dinamiche di gioco." }

def educatoreOnline : Job :=
  { name := "Educatore Online",
    tags := {"insegnamento", "scrittura", "media", "tecnologia"},
    description := "Creazione di corsi e percorsi formativi digitali." }

def JOBS_DB : List Job :=
  [sportsJournalist, uxDesigner, dataAnalyst, productManagerSportTech,
   contentCreator, mentalCoachSportivo, gameDesigner, educatoreOnline]

/-- The body of the ranking loop: `s = score_job(...); if s > 0: append (s, job)`. -/
def scoreEntry (interests : List String) (ow : Option (List (String × ℚ)))
    (job : Job) : Option (ℚ × Job) :=
  let s := score_job interests job.tags ow
  if 0 < s then some (s, job) else none

/-- The loop `for job in JOBS_DB: s = score_job(...); if s > 0: scored.append((s, job))`. -/
def scoredPre (jobs : List Job) (interests : List String)
    (ow : Option (List (String × ℚ))) : List (ℚ × Job) :=
  jobs.filterMap (scoreEntry interests ow)

/-- The comparison of `scored.sort(key=lambda x: x[0], reverse=True)`:
`a` may come before `b` when `a`'s score is at least `b`'s. -/
def scoreGE (a b : ℚ × Job) : Prop := b.1 ≤ a.1

instance : DecidableRel scoreGE := fun a b => inferInstanceAs (Decidable (b.1 ≤ a.1))

instance : IsTotal (ℚ × Job) scoreGE := ⟨fun a b => le_total b.1 a.1⟩

instance : IsTrans (ℚ × Job) scoreGE := ⟨fun _ _ _ h1 h2 => le_trans h2 h1⟩

/-- The ranking pass: the filtered scored list, stably sorted by score
descending (Python's `list.sort` is stable; `reverse=True` flips the
comparison, not the order of ties). -/
def scored (jobs : List Job) (interests : List String)
    (ow : Option (List (String × ℚ))) : List (ℚ × Job) :=
  List.insertionSort scoreGE (scoredPre jobs interests ow)

/-- C3: the ranking pass returns the scored jobs sorted by score descending,
is a permutation of the filtered catalog-order list, contains only positive
scores (each the job's `score_job` value), excludes every job whose tags do
not meet the interests, and preserves the catalog order of tied scores
(stability). -/
theorem scored_spec (jobs : List Job) (interests : List String)
    (ow : Option (List (String × ℚ))) :
    (scored jobs interests ow).Pairwise (fun a b => b.1 ≤ a.1)
    ∧ (scored jobs interests ow).Perm (scoredPre jobs interests ow)
    ∧ (∀ p ∈ scored jobs interests ow, 0 < p.1 ∧ p.1 = score_job interests p.2.tags ow)
    ∧ (∀ j ∈ jobs, interests.toFinset ∩ j.tags = ∅ →
        ∀ s : ℚ, (s, j) ∉ scored jobs interests ow)
    ∧ (∀ (s : ℚ) (a b : Job), [(s, a), (s, b)].Sublist (scoredPre jobs interests ow) →
        [(s, a), (s, b)].Sublist (scored jobs interests ow)) := by
  have hperm : (scored jobs interests ow).Perm (scoredPre jobs interests ow) :=
    List.perm_insertionSort scoreGE _
  have hchar : ∀ p ∈ scored jobs interests ow,
      0 < p.1 ∧ p.1 = score_job interests p.2.tags ow := by
    intro p hp
    have hp2 : p ∈ scoredPre jobs interests ow := hperm.mem_iff.mp hp
    simp only [scoredPre, scoreEntry, List.mem_filterMap] at hp2
    rcases hp2 with ⟨job, _, hif⟩
    split at hif
    · rw [Option.some.injEq] at hif
      subst hif
      exact ⟨by assumption, rfl⟩
    · exact absurd hif (by simp)
  refine ⟨?_, hperm, hchar, ?_, ?_⟩
  · exact List.sorted_insertionSort scoreGE (scoredPre jobs interests ow)
  · intro j _ hover s hmem
    have h1 := hchar (s, j) hmem
    have h2 : score_job interests j.tags ow = 0 := score_job_of_empty_overlap _ _ _ hover
    exact absurd (h1.2.trans h2) (ne_of_gt h1.1)
  · intro s a b hsub
    exact List.sublist_insertionSort (List.pairwise_pair.mpr (le_refl s)) hsub

theorem scored_spec_witness : (1, sportsJournalist) ∉ scored JOBS_DB ["musica"] none :=
  (scored_spec JOBS_DB ["musica"] none).2.2.2.1 sportsJournalist (by decide) (by decide) 1

/-- Evaluation principle for one concrete score: supply the overlap set, the
three cardinalities and the penalty sum, and the score is the unclamped
formula value whenever that value is nonnegative. -/
lemma score_job_value (u : List String) (t : Finset String) (ws : List (String × ℚ))
    (ov : Finset String) (k nU nT : ℕ) (pen : ℚ)
    (hov : u.toFinset ∩ t = ov)
    (hne : ov ≠ ∅)
    (hk : ov.card = k) (hU : u.toFinset.card = nU) (hT : t.card = nT)
    (hpen : ov.sum (fun i => obsession_contrib (effectiveWeight (some ws) i)) = pen)
    (hpos : 0 ≤ (6 / 10) * ((k : ℚ) / ((max 1 nT : ℕ) : ℚ))
      + (4 / 10) * ((k : ℚ) / ((max 1 nU : ℕ) : ℚ)) - pen) :
    score_job u t (some ws) = (6 / 10) * ((k : ℚ) / ((max 1 nT : ℕ) : ℚ))
      + (4 / 10) * ((k : ℚ) / ((max 1 nU : ℕ) : ℚ)) - pen := by
  rw [score_job_eq, hov, if_neg hne, hk, hU, hT, hpen]
  exact max_eq_right hpos

/-- With every weight at most `1.0` the penalty sum vanishes. -/
lemma penalty_sum_zero (ws : List (String × ℚ)) (hws : ∀ p ∈ ws, p.2 ≤ 1)
    (s : Finset String) :
    s.sum (fun i => obsession_contrib (effectiveWeight (some ws) i)) = 0 := by
  apply Finset.sum_eq_zero
  intro i _
  apply obsession_contrib_of_le_one
  rcases wlookup_mem_or_one ws i with ⟨p, hp, he⟩ | he
  · show wlookup ws i ≤ 1
    rw [he]
    exact hws p hp
  · show wlookup ws i ≤ 1
    rw [he]

/-- The worked example of the specification: the default interest selection
with every slider at `1.0`. -/
def interestsEx : List String := ["sport", "tecnologia", "scrittura"]

def weightsOne : List (String × ℚ) :=
  [("sport", 1), ("tecnologia", 1), ("scrittura", 1)]

/-- The same sliders with the weight of `"sport"` raised to `3.0`. -/
def weightsSport3 : List (String × ℚ) :=
  [("sport", 3), ("tecnologia", 1), ("scrittura", 1)]

lemma score_SJ_one : score_job interestsEx sportsJournalist.tags (some weightsOne) = 2 / 3 := by
  rw [score_job_value interestsEx sportsJournalist.tags weightsOne
    {"sport", "scrittura"} 2 3 3 0 (by decide) (by decide) (by decide) (by decide) (by decide)
    (penalty_sum_zero weightsOne (by decide) _) (by norm_num)]
  norm_num

lemma score_PM_one :
    score_job interestsEx productManagerSportTech.tags (some weightsOne) = 17 / 30 := by
  rw [score_job_value interestsEx productManagerSportTech.tags weightsOne
    {"sport", "tecnologia"} 2 3 4 0 (by decide) (by decide) (by decide) (by decide) (by decide)
    (penalty_sum_zero weightsOne (by decide) _) (by norm_num)]
  norm_num

/-- C5: on the worked example the two scores are exactly the spec's values and
the ranking places "Sports Journalist" above "Product Manager (Sport-Tech)"
(the pair appears in this order inside the ranked list). -/
theorem example_scores_and_ranking :
    score_job interestsEx sportsJournalist.tags (some weightsOne)
        = (6 / 10) * (2 / 3) + (4 / 10) * (2 / 3)
    ∧ score_job interestsEx sportsJournalist.tags (some weightsOne) = 2 / 3
    ∧ score_job interestsEx productManagerSportTech.tags (some weightsOne)
        = (6 / 10) * (1 / 2) + (4 / 10) * (2 / 3)
    ∧ [(score_job interestsEx sportsJournalist.tags (some weightsOne), sportsJournalist),
        (score_job interestsEx productManagerSportTech.tags (some weightsOne),
          productManagerSportTech)].Sublist
        (scored JOBS_DB interestsEx (some weightsOne)) := by
  refine ⟨by rw [score_SJ_one]; norm_num, score_SJ_one, by rw [score_PM_one]; norm_num, ?_⟩
  apply List.sublist_insertionSort
  · refine List.pairwise_pair.mpr ?_
    show score_job interestsEx productManagerSportTech.tags (some weightsOne)
      ≤ score_job interestsEx sportsJournalist.tags (some weightsOne)
    rw [score_SJ_one, score_PM_one]
    norm_num
  · have hsub : [sportsJournalist, productManagerSportTech].Sublist JOBS_DB := by decide
    have h2 := List.Sublist.filterMap (scoreEntry interestsEx (some weightsOne)) hsub
    have hf : List.filterMap (scoreEntry interestsEx (some weightsOne))
        [sportsJournalist, productManagerSportTech]
        = [(score_job interestsEx sportsJournalist.tags (some weightsOne), sportsJournalist),
           (score_job interestsEx productManagerSportTech.tags (some weightsOne),
             productManagerSportTech)] := by
      simp only [List.filterMap_cons, List.filterMap_nil, scoreEntry]
      rw [score_SJ_one, score_PM_one]
      norm_num
    rw [hf] at h2
    exact h2

lemma pen_SJ_sport3 : ({"sport", "scrittura"} : Finset String).sum
    (fun i => obsession_contrib (effectiveWeight (some weightsSport3) i)) = 1 / 10 := by
  rw [Finset.sum_pair (by decide : ("sport" : String) ≠ "scrittura")]
  have e1 : effectiveWeight (some weightsSport3) "sport" = 3 := rfl
  have e2 : effectiveWeight (some weightsSport3) "scrittura" = 1 := rfl
  rw [e1, e2]
  norm_num [obsession_contrib]

lemma pen_PM_sport3 : ({"sport", "tecnologia"} : Finset String).sum
    (fun i => obsession_contrib (effectiveWeight (some weightsSport3) i)) = 1 / 10 := by
  rw [Finset.sum_pair (by decide : ("sport" : String) ≠ "tecnologia")]
  have e1 : effectiveWeight (some weightsSport3) "sport" = 3 := rfl
  have e2 : effectiveWeight (some weightsSport3) "tecnologia" = 1 := rfl
  rw [e1, e2]
  norm_num [obsession_contrib]

lemma pen_MC_sport3 : ({"sport"} : Finset String).sum
    (fun i => obsession_contrib (effectiveWeight (some weightsSport3) i)) = 1 / 10 := by
  rw [Finset.sum_singleton]
  have e1 : effectiveWeight (some weightsSport3) "sport" = 3 := rfl
  rw [e1]
  norm_num [obsession_contrib]

lemma score_SJ_sport3 :
    score_job interestsEx sportsJournalist.tags (some weightsSport3) = 17 / 30 := by
  rw [score_job_value interestsEx sportsJournalist.tags weightsSport3
    {"sport", "scrittura"} 2 3 3 (1 / 10) (by decide) (by decide) (by decide) (by decide)
    (by decide) pen_SJ_sport3 (by norm_num)]
  norm_num

lemma score_PM_sport3 :
    score_job interestsEx productManagerSportTech.tags (some weightsSport3) = 7 / 15 := by
  rw [score_job_value interestsEx productManagerSportTech.tags weightsSport3
    {"sport", "tecnologia"} 2 3 4 (1 / 10) (by decide) (by decide) (by decide) (by decide)
    (by decide) pen_PM_sport3 (by norm_num)]
  norm_num

lemma score_MC_one :
    score_job interestsEx mentalCoachSportivo.tags (some weightsOne) = 1 / 3 := by
  rw [score_job_value interestsEx mentalCoachSportivo.tags weightsOne
    {"sport"} 1 3 3 0 (by decide) (by decide) (by decide) (by decide) (by decide)
    (penalty_sum_zero weightsOne (by decide) _) (by norm_num)]
  norm_num

lemma score_MC_sport3 :
    score_job interestsEx mentalCoachSportivo.tags (some weightsSport3) = 7 / 30 := by
  rw [score_job_value interestsEx mentalCoachSportivo.tags weightsSport3
    {"sport"} 1 3 3 (1 / 10) (by decide) (by decide) (by decide) (by decide)
    (by decide) pen_MC_sport3 (by norm_num)]
  norm_num

/-- C6: raising only the `"sport"` weight from `1.0` to `3.0` lowers the score
of every catalog job whose overlap with the example interests contains
`"sport"` by exactly `(3.0 - 1.0) * 0.05 = 0.10`, a strict decrease. -/
theorem sport_weight_exact_decrease :
    ∀ job ∈ JOBS_DB, "sport" ∈ interestsEx.toFinset ∩ job.tags →
      (score_job interestsEx job.tags (some weightsSport3)
          = score_job interestsEx job.tags (some weightsOne) - (3 - 1) * (5 / 100)
        ∧ score_job interestsEx job.tags (some weightsSport3)
          < score_job interestsEx job.tags (some weightsOne)) := by
  intro job hjob hsport
  simp only [JOBS_DB] at hjob
  fin_cases hjob
  · rw [score_SJ_one, score_SJ_sport3]
    norm_num
  · exact absurd hsport (by decide)
  · exact absurd hsport (by decide)
  · rw [score_PM_one, score_PM_sport3]
    norm_num
  · exact absurd hsport (by decide)
  · rw [score_MC_one, score_MC_sport3]
    norm_num
  · exact absurd hsport (by decide)
  · exact absurd hsport (by decide)

theorem sport_weight_exact_decrease_witness :
    score_job interestsEx mentalCoachSportivo.tags (some weightsSport3)
        = score_job interestsEx mentalCoachSportivo.tags (some weightsOne) - (3 - 1) * (5 / 100)
      ∧ score_job interestsEx mentalCoachSportivo.tags (some weightsSport3)
        < score_job interestsEx mentalCoachSportivo.tags (some weightsOne) :=
  sport_weight_exact_decrease mentalCoachSportivo (by decide) (by decide)

/-- The four hard-coded suggestion strings of `infer_hybrid_jobs`. -/
def suggestionUXResearcher : String :=
  "UX Researcher per app sportive (unisce sport + psicologia + design)"

def suggestionDataStoryteller : String :=
  "Data Storyteller (analisi dati + comunicazione)"

def suggestionFounder : String :=
  "Founder di micro-prodotto digitale basato sulle tue passioni"

def suggestionPortfolio : String :=
  "Portfolio career: combina 2-3 attività part-time invece di un solo lavoro"

/-- `names = [j["name"] for j in best_jobs[:5]]`. -/
def topNames (best_jobs : List Job) : List String :=
  (best_jobs.take 5).map Job.name

/-- Condition of the first rule: both names present among the top five. -/
def rule1Fires (names : List String) : Prop :=
  "Sports Journalist" ∈ names ∧ "UX Designer" ∈ names

/-- Condition of the second rule. -/
def rule2Fires (names : List String) : Prop :=
  "Data Analyst" ∈ names ∧ "Content Creator" ∈ names

/-- Condition of the third rule: `any("Product Manager" in n for n in names)`,
substring containment modelled on character lists. -/
def rule3Fires (names : List String) : Prop :=
  ∃ n ∈ names, "Product Manager".toList <:+: n.toList

instance (names : List String) : Decidable (rule1Fires names) := by
  unfold rule1Fires
  exact inferInstance

instance (names : List String) : Decidable (rule2Fires names) := by
  unfold rule2Fires
  exact inferInstance

instance (names : List String) : Decidable (rule3Fires names) := by
  unfold rule3Fires
  exact inferInstance

/-- `infer_hybrid_jobs(best_jobs)` from the source: three independent pattern
rules appending suggestions in declaration order, then the fallback when
nothing fired. -/
def infer_hybrid_jobs (best_jobs : List Job) : List String :=
  let names := topNames best_jobs
  let suggestions : List String := []
  let suggestions :=
    if rule1Fires names then suggestions ++ [suggestionUXResearcher] else suggestions
  let suggestions :=
    if rule2Fires names then suggestions ++ [suggestionDataStoryteller] else suggestions
  let suggestions :=
    if rule3Fires names then suggestions ++ [suggestionFounder] else suggestions
  if suggestions.isEmpty then suggestions ++ [suggestionPortfolio] else suggestions

/-- C7: each rule fires independently (its suggestion appears iff its own
condition holds), the output is an in-order selection of the declared
suggestion strings, and the single fallback string appears exactly when no
rule fires — in particular on the empty top-jobs list. -/
theorem infer_hybrid_jobs_spec (best_jobs : List Job) :
    (suggestionUXResearcher ∈ infer_hybrid_jobs best_jobs
      ↔ rule1Fires (topNames best_jobs))
    ∧ (suggestionDataStoryteller ∈ infer_hybrid_jobs best_jobs
      ↔ rule2Fires (topNames best_jobs))
    ∧ (suggestionFounder ∈ infer_hybrid_jobs best_jobs
      ↔ rule3Fires (topNames best_jobs))
    ∧ (infer_hybrid_jobs best_jobs = [suggestionPortfolio]
      ↔ ¬rule1Fires (topNames best_jobs) ∧ ¬rule2Fires (topNames best_jobs)
        ∧ ¬rule3Fires (topNames best_jobs))
    ∧ (suggestionPortfolio ∈ infer_hybrid_jobs best_jobs
      ↔ ¬rule1Fires (topNames best_jobs) ∧ ¬rule2Fires (topNames best_jobs)
        ∧ ¬rule3Fires (topNames best_jobs))
    ∧ (infer_hybrid_jobs best_jobs).Sublist
        [suggestionUXResearcher, suggestionDataStoryteller, suggestionFounder,
          suggestionPortfolio]
    ∧ infer_hybrid_jobs [] = [suggestionPortfolio] := by
  by_cases h1 : rule1Fires (topNames best_jobs) <;>
    by_cases h2 : rule2Fires (topNames best_jobs) <;>
      by_cases h3 : rule3Fires (topNames best_jobs) <;>
        simp only [infer_hybrid_jobs, h1, h2, h3, if_true, if_false, iff_true, iff_false,
          not_true, not_false_iff, List.nil_append, List.cons_append, List.append_nil,
          List.isEmpty_cons, List.isEmpty_nil, Bool.false_eq_true, ite_true, ite_false] <;>
        decide

lemma toLower_eq_of_upper {c : Char} (h : 65 ≤ c.toNat ∧ c.toNat ≤ 90) :
    c.toLower = Char.ofNat (c.toNat + 32) := by
  simp only [Char.toLower]
  rw [if_pos (⟨h.1, h.2⟩ : c.toNat ≥ 65 ∧ c.toNat ≤ 90)]

lemma toLower_eq_self {c : Char} (h : ¬(65 ≤ c.toNat ∧ c.toNat ≤ 90)) :
    c.toLower = c := by
  simp only [Char.toLower]
  rw [if_neg (fun hc => h ⟨hc.1, hc.2⟩)]

lemma toLower_ofNat_fixed (n : ℕ) (h1 : 65 ≤ n) (h2 : n ≤ 90) :
    Char.toLower (Char.ofNat (n + 32)) = Char.ofNat (n + 32) := by
  interval_cases n <;> decide

lemma isWhitespace_ofNat_upper32 (n : ℕ) (h1 : 65 ≤ n) (h2 : n ≤ 90) :
    (Char.ofNat (n + 32)).isWhitespace = false := by
  interval_cases n <;> decide

lemma comma_ofNat_upper32 (n : ℕ) (h1 : 65 ≤ n) (h2 : n ≤ 90) :
    Char.ofNat (n + 32) ≠ ',' := by
  interval_cases n <;> decide

/-- `str.lower()` is idempotent on each character. -/
lemma toLower_toLower (c : Char) : c.toLower.toLower = c.toLower := by
  by_cases h : 65 ≤ c.toNat ∧ c.toNat ≤ 90
  · rw [toLower_eq_of_upper h]
    exact toLower_ofNat_fixed c.toNat h.1 h.2
  · rw [toLower_eq_self h, toLower_eq_self h]

lemma isWhitespace_of_upper_false {c : Char} (h : 65 ≤ c.toNat ∧ c.toNat ≤ 90) :
    c.isWhitespace = false := by
  simp only [Char.isWhitespace, Bool.or_eq_false_iff, decide_eq_false_iff_not]
  refine ⟨⟨⟨fun hc => ?_, fun hc => ?_⟩, fun hc => ?_⟩, fun hc => ?_⟩ <;>
    (subst hc; revert h; decide)

/-- Lowercasing does not change whether a character is whitespace. -/
lemma isWhitespace_toLower (c : Char) : c.toLower.isWhitespace = c.isWhitespace := by
  by_cases h : 65 ≤ c.toNat ∧ c.toNat ≤ 90
  · rw [toLower_eq_of_upper h, isWhitespace_ofNat_upper32 _ h.1 h.2,
      isWhitespace_of_upper_false h]
  · rw [toLower_eq_self h]

/-- Lowercasing cannot create a comma. -/
lemma toLower_eq_comma {c : Char} (h : c.toLower = ',') : c = ',' := by
  by_cases hc : 65 ≤ c.toNat ∧ c.toNat ≤ 90
  · rw [toLower_eq_of_upper hc] at h
    exact absurd h (comma_ofNat_upper32 _ hc.1 hc.2)
  · rwa [toLower_eq_self hc] at h

/-- Python `x.strip()` on the right end only (trailing whitespace). -/
def rstripWS (l : List Char) : List Char :=
  (l.reverse.dropWhile Char.isWhitespace).reverse

/-- Python `x.strip()`: drop leading and trailing whitespace. -/
def pyStrip (l : List Char) : List Char :=
  rstripWS (l.dropWhile Char.isWhitespace)

/-- Python `x.lower()` (basic-latin model, per `Char.toLower`). -/
def pyLower (l : List Char) : List Char :=
  l.map Char.toLower

/-- Python `text.split(",")` on character lists: one piece per comma gap,
`n` commas giving `n + 1` pieces (empty pieces kept). -/
def pySplitComma : List Char → List (List Char)
  | [] => [[]]
  | c :: cs =>
    if c = ',' then [] :: pySplitComma cs
    else ((c :: (pySplitComma cs).headI) :: (pySplitComma cs).tail)

/-- Python `",".join(tokens)`. -/
def pyJoinComma : List (List Char) → List Char
  | [] => []
  | [t] => t
  | t :: ts => t ++ ',' :: pyJoinComma ts

/-- `normalize_items(text)` from the source:
`raw = [x.strip().lower() for x in text.split(",")]; return [x for x in raw if x]`. -/
def normalize_items (text : List Char) : List (List Char) :=
  ((pySplitComma text).map (fun x => pyLower (pyStrip x))).filter (fun x => !x.isEmpty)

lemma pySplitComma_ne_nil (l : List Char) : pySplitComma l ≠ [] := by
  cases l with
  | nil => simp [pySplitComma]
  | cons c cs =>
    simp only [pySplitComma]
    split <;> simp

lemma comma_not_mem_split : ∀ (l : List Char), ∀ p ∈ pySplitComma l, ',' ∉ p := by
  intro l
  induction l with
  | nil =>
    intro p hp
    simp only [pySplitComma, List.mem_singleton] at hp
    simp [hp]
  | cons c cs ih =>
    intro p hp
    simp only [pySplitComma] at hp
    by_cases hc : c = ','
    · rw [if_pos hc] at hp
      rcases List.mem_cons.mp hp with rfl | hp2
      · simp
      · exact ih p hp2
    · rw [if_neg hc] at hp
      rcases List.mem_cons.mp hp with rfl | hp2
      · intro hmem
        rcases List.mem_cons.mp hmem with h1 | h2
        · exact hc h1.symm
        · rcases hsplit : pySplitComma cs with _ | ⟨q, qs⟩
          · exact pySplitComma_ne_nil cs hsplit
          · rw [hsplit] at h2
            exact ih q (by rw [hsplit]; exact List.mem_cons_self q qs) h2
      · exact ih p (List.mem_of_mem_tail hp2)

lemma split_of_no_comma : ∀ (t : List Char), ',' ∉ t → pySplitComma t = [t] := by
  intro t
  induction t with
  | nil => intro _; rfl
  | cons c t' ih =>
    intro h
    rw [List.mem_cons, not_or] at h
    have hc : c ≠ ',' := fun e => h.1 e.symm
    simp only [pySplitComma]
    rw [if_neg hc, ih h.2]
    rfl

lemma split_append_comma : ∀ (t : List Char), ∀ l, ',' ∉ t →
    pySplitComma (t ++ ',' :: l) = t :: pySplitComma l := by
  intro t
  induction t with
  | nil =>
    intro l _
    simp [pySplitComma]
  | cons c t' ih =>
    intro l h
    rw [List.mem_cons, not_or] at h
    have hc : c ≠ ',' := fun e => h.1 e.symm
    simp only [List.cons_append, pySplitComma, List.append_eq]
    rw [if_neg hc, ih l h.2]
    rfl

lemma split_join : ∀ (ts : List (List Char)), ts ≠ [] → (∀ t ∈ ts, ',' ∉ t) →
    pySplitComma (pyJoinComma ts) = ts := by
  intro ts
  induction ts with
  | nil => intro h; exact absurd rfl h
  | cons t ts' ih =>
    intro _ hall
    cases ts' with
    | nil =>
      show pySplitComma (pyJoinComma [t]) = [t]
      rw [show pyJoinComma [t] = t from rfl]
      exact split_of_no_comma t (hall t (List.mem_cons_self t []))
    | cons t2 ts2 =>
      rw [show pyJoinComma (t :: t2 :: ts2) = t ++ ',' :: pyJoinComma (t2 :: ts2) from rfl]
      rw [split_append_comma t _ (hall t (List.mem_cons_self _ _))]
      rw [ih (by simp) (fun u hu => hall u (List.mem_cons_of_mem t hu))]

lemma dropWhile_dropWhile {α : Type} (p : α → Bool) :
    ∀ l : List α, (l.dropWhile p).dropWhile p = l.dropWhile p := by
  intro l
  induction l with
  | nil => rfl
  | cons c l ih =>
    by_cases hc : p c = true
    · rw [List.dropWhile_cons_of_pos hc, ih]
    · rw [List.dropWhile_cons_of_neg hc, List.dropWhile_cons_of_neg hc]

lemma rstripWS_front (l : List Char) : rstripWS l <+: l := by
  unfold rstripWS
  rw [show l = l.reverse.reverse from (List.reverse_reverse l).symm]
  rw [List.reverse_reverse]
  exact List.reverse_prefix.mpr (List.dropWhile_suffix _)

lemma rstripWS_idem (l : List Char) : rstripWS (rstripWS l) = rstripWS l := by
  unfold rstripWS
  rw [List.reverse_reverse, dropWhile_dropWhile]

lemma dropWhile_eq_self_of_prefix {p : Char → Bool} {m n : List Char}
    (hm : m.dropWhile p = m) (hpre : n <+: m) : n.dropWhile p = n := by
  cases n with
  | nil => rfl
  | cons a n2 =>
    cases m with
    | nil =>
      have := List.prefix_nil.mp hpre
      exact absurd this (by simp)
    | cons b m2 =>
      have hab : a = b := by
        rcases hpre with ⟨k, hk⟩
        simpa using congrArg List.headI hk
      subst hab
      have hpb : p a = false := by
        by_contra hp
        rw [List.dropWhile_cons_of_pos (by simpa using hp)] at hm
        have h2 : (m2.dropWhile p).length ≤ m2.length := (List.dropWhile_sublist p).length_le
        have h3 := congrArg List.length hm
        simp at h3
        omega
      rw [List.dropWhile_cons_of_neg (by simp [hpb])]

lemma pyStrip_idem (l : List Char) : pyStrip (pyStrip l) = pyStrip l := by
  unfold pyStrip
  have hds : (l.dropWhile Char.isWhitespace).dropWhile Char.isWhitespace
      = l.dropWhile Char.isWhitespace := dropWhile_dropWhile _ l
  have h1 : (rstripWS (l.dropWhile Char.isWhitespace)).dropWhile Char.isWhitespace
      = rstripWS (l.dropWhile Char.isWhitespace) :=
    dropWhile_eq_self_of_prefix hds (rstripWS_front _)
  rw [h1, rstripWS_idem]

lemma pyStrip_map_toLower (l : List Char) :
    pyStrip (pyLower l) = pyLower (pyStrip l) := by
  have hwf : (Char.isWhitespace ∘ Char.toLower) = Char.isWhitespace :=
    funext isWhitespace_toLower
  simp only [pyStrip, rstripWS, pyLower]
  rw [List.dropWhile_map, hwf, ← List.map_reverse, List.dropWhile_map, hwf,
    ← List.map_reverse]

lemma pyLower_idem (l : List Char) : pyLower (pyLower l) = pyLower l := by
  unfold pyLower
  rw [List.map_map]
  apply List.map_congr_left
  intro c _
  exact toLower_toLower c

lemma comma_not_mem_pyStrip {s : List Char} (h : ',' ∉ s) : ',' ∉ pyStrip s := by
  intro hm
  apply h
  have h1 : (pyStrip s).Sublist s := by
    unfold pyStrip
    exact ((rstripWS_front _).sublist).trans (List.dropWhile_sublist _)
  exact h1.mem hm

lemma comma_not_mem_pyLower {s : List Char} (h : ',' ∉ s) : ',' ∉ pyLower s := by
  intro hm
  rcases List.mem_map.mp hm with ⟨c, hc, he⟩
  exact h (toLower_eq_comma he ▸ hc)

/-- Every token produced by `normalize_items` is nonempty, comma-free, and a
fixed point of strip-then-lower. -/
lemma normalize_items_token_facts (t : List Char) :
    ∀ p ∈ normalize_items t, p ≠ [] ∧ ',' ∉ p ∧ pyLower (pyStrip p) = p := by
  intro p hp
  unfold normalize_items at hp
  rw [List.mem_filter] at hp
  obtain ⟨hmem, hne⟩ := hp
  rcases List.mem_map.mp hmem with ⟨s, hs, rfl⟩
  have hsc : ',' ∉ s := comma_not_mem_split t s hs
  refine ⟨?_, comma_not_mem_pyLower (comma_not_mem_pyStrip hsc), ?_⟩
  · intro he
    rw [he] at hne
    simp at hne
  · rw [pyStrip_map_toLower, pyStrip_idem, pyLower_idem]

/-- C8: normalization is idempotent — normalizing the comma-joined form of its
own output returns the same token list. -/
theorem normalize_items_idem (t : List Char) :
    normalize_items (pyJoinComma (normalize_items t)) = normalize_items t := by
  by_cases hout : normalize_items t = []
  · rw [hout]
    rfl
  · have hfacts := normalize_items_token_facts t
    have hsplit : pySplitComma (pyJoinComma (normalize_items t)) = normalize_items t :=
      split_join _ hout (fun u hu => (hfacts u hu).2.1)
    show ((pySplitComma (pyJoinComma (normalize_items t))).map
        (fun x => pyLower (pyStrip x))).filter (fun x => !x.isEmpty) = normalize_items t
    rw [hsplit]
    have hmap : (normalize_items t).map (fun x => pyLower (pyStrip x)) = normalize_items t := by
      calc (normalize_items t).map (fun x => pyLower (pyStrip x))
          = (normalize_items t).map id :=
            List.map_congr_left (fun a ha => (hfacts a ha).2.2)
        _ = normalize_items t := List.map_id _
    rw [hmap]
    rw [List.filter_eq_self.mpr ?_]
    intro a ha
    cases a with
    | nil => exact absurd rfl (hfacts [] ha).1
    | cons x xs => rfl

/-- `list(dict.fromkeys(...))`: deduplicate keeping first occurrences in
order. -/
def dedupKeepFirst (l : List String) : List String :=
  l.foldl (fun seen x => if x ∈ seen then seen else seen ++ [x]) []

/-- What one full recomputation pass of the page produces downstream of the
input check. -/
structure AppResult where
  combos : List (List String)
  ranked : List (ℚ × Job)
  hybrid : List String
deriving DecidableEq

/-- `interests = list(dict.fromkeys(selected_defaults + custom_items))` with
`custom_items = normalize_items(custom_text) if custom_text else []`. -/
def mergedInterests (selected_defaults : List String) (custom_text : List Char) :
    List String :=
  let custom_items :=
    if custom_text.isEmpty then []
    else (normalize_items custom_text).map (fun l => String.mk l)
  dedupKeepFirst (selected_defaults ++ custom_items)

/-- The interaction pass of the script: merge the interests, stop with the
"insufficient input" message when none remain (`st.info(...); st.stop()`),
otherwise build the slider weight map and run combinations, ranking and
hybrid suggestions (the hybrid block only runs when `scored` is nonempty). -/
def run_app (selected_defaults : List String) (custom_text : List Char)
    (slider : String → ℚ) : Except String AppResult :=
  let interests := mergedInterests selected_defaults custom_text
  if interests.isEmpty then
    Except.error "Inserisci almeno un interesse per iniziare."
  else
    let obsession_weights := interests.map (fun i => (i, slider i))
    let ranked := scored JOBS_DB interests (some obsession_weights)
    Except.ok
      { combos := generate_combinations interests
        ranked := ranked
        hybrid := if ranked.isEmpty then [] else infer_hybrid_jobs (ranked.map Prod.snd) }

/-- C9: the pass signals "insufficient input" exactly when the merged interest
list is empty — the only error condition — and in that case produces no
combinations, ranking or suggestions; every successful result carries exactly
the downstream computations over the merged interests. -/
theorem run_app_empty_interests_spec (sd : List String) (ct : List Char)
    (sl : String → ℚ) :
    (run_app sd ct sl = Except.error "Inserisci almeno un interesse per iniziare."
      ↔ mergedInterests sd ct = [])
    ∧ (∀ e, run_app sd ct sl = Except.error e → mergedInterests sd ct = [])
    ∧ (∀ res, run_app sd ct sl = Except.ok res →
        mergedInterests sd ct ≠ []
        ∧ res.combos = generate_combinations (mergedInterests sd ct)
        ∧ res.ranked = scored JOBS_DB (mergedInterests sd ct)
            (some ((mergedInterests sd ct).map (fun i => (i, sl i))))
        ∧ res.hybrid = (if res.ranked.isEmpty then []
            else infer_hybrid_jobs (res.ranked.map Prod.snd))) := by
  by_cases h : mergedInterests sd ct = []
  · have hrun : run_app sd ct sl
        = Except.error "Inserisci almeno un interesse per iniziare." := by
      simp only [run_app, h]
      rfl
    refine ⟨⟨fun _ => h, fun _ => hrun⟩, fun e _ => h, ?_⟩
    intro res hres
    rw [hrun] at hres
    exact absurd hres (by simp)
  · have hne : ¬(mergedInterests sd ct).isEmpty = true := by
      simpa [List.isEmpty_iff] using h
    have hrun : run_app sd ct sl = Except.ok
        { combos := generate_combinations (mergedInterests sd ct)
          ranked := scored JOBS_DB (mergedInterests sd ct)
              (some ((mergedInterests sd ct).map (fun i => (i, sl i))))
          hybrid := if (scored JOBS_DB (mergedInterests sd ct)
                (some ((mergedInterests sd ct).map (fun i => (i, sl i))))).isEmpty
              then []
              else infer_hybrid_jobs ((scored JOBS_DB (mergedInterests sd ct)
                (some ((mergedInterests sd ct).map (fun i => (i, sl i))))).map Prod.snd) } := by
      simp only [run_app, if_neg hne]
    refine ⟨⟨fun he => ?_, fun he => absurd he h⟩, fun e he => ?_, ?_⟩
    · rw [hrun] at he
      exact absurd he (by simp)
    · rw [hrun] at he
      exact absurd he (by simp)
    · intro res hres
      rw [hrun] at hres
      rw [Except.ok.injEq] at hres
      subst hres
      exact ⟨h, rfl, rfl, rfl⟩
